import Mathlib

/-!
Verification of the package-dependency visualizer.

The development embeds the two core components of `visualizer.py` — the
package-database parser `parse_installed_packages` and the transitive
dependency-graph builder `build_dependency_graph` — together with the two
boundary components `generate_plantuml` (diagram text) and `generate_image`
(external renderer invocation with temp-file cleanup).

Modelling decisions, matching the source line by line:
* Python `dict` values are modelled as insertion-ordered association lists
  `List (String × List String)`; assignment `d[k] = v` is `dictInsert`
  (update in place preserving position when the key exists, append
  otherwise), and `d.get(k, [])` is `dbGet`.
* Python string operations are modelled on the character list of the
  string: `line.strip()` is `pyStrip`, `line.startswith(p)` is
  `pyStartsWith`, `line[2:]` is `pyDrop line 2`, and the no-argument
  `str.split()` (splitting on whitespace runs, discarding empty tokens)
  is `pySplit`.
* The recursive `visit` closure of `build_dependency_graph` is realised as
  a stack machine (`buildVisit`): popping `pkg` with the dependency stack
  `deps ++ rest` performs the pre-order depth-first traversal in exactly
  the source's recursion order.  A fuel parameter makes the function
  structurally recursive; `buildVisit_sound` proves the fuel
  `totalDepLen db + 1` always suffices, so the `none` (out of fuel)
  branch is unreachable.
* `generate_image`'s effects (temp file creation, subprocess invocation,
  artifact check, rename, `finally` cleanup) are modelled by explicit
  state passing over a file system represented as the list of existing
  paths; the subprocess is an external event given by its return code,
  its standard-error text and whether it produced the expected artifact.
-/

/-- Python `str.strip()`: drop leading and trailing whitespace. -/
def pyStrip (s : String) : String :=
  String.mk (((s.data.dropWhile Char.isWhitespace).reverse.dropWhile Char.isWhitespace).reverse)

/-- Python `s.startswith(pre)`. -/
def pyStartsWith (s pre : String) : Bool :=
  pre.data.isPrefixOf s.data

/-- Python `s[n:]` (slicing counts code points). -/
def pyDrop (s : String) (n : Nat) : String :=
  String.mk (s.data.drop n)

/-- Helper for `pySplit`: scan the characters, `acc` holds the reversed
current token. -/
def pySplitAux : List Char → List Char → List String
  | [], acc => if acc = [] then [] else [String.mk acc.reverse]
  | c :: cs, acc =>
    if c.isWhitespace then
      if acc = [] then pySplitAux cs []
      else String.mk acc.reverse :: pySplitAux cs []
    else pySplitAux cs (c :: acc)

/-- Python `str.split()` with no arguments: split on runs of whitespace,
never producing empty tokens. -/
def pySplit (s : String) : List String :=
  pySplitAux s.data []

/-- Helper for `splitLines`. -/
def splitLinesAux : List Char → List Char → List String
  | [], acc => [String.mk acc.reverse]
  | c :: cs, acc =>
    if c = '\n' then String.mk acc.reverse :: splitLinesAux cs []
    else splitLinesAux cs (c :: acc)

/-- Split a text into its lines at `\n` (the file iteration
`for line in f` of the source; each line is stripped afterwards anyway). -/
def splitLines (s : String) : List String :=
  splitLinesAux s.data []

/-- A package database / dependency graph: insertion-ordered mapping from
package name to dependency list (Python `Dict[str, List[str]]`). -/
abbrev PDB := List (String × List String)

/-- Python dict assignment `d[k] = v`: replace the value at the first
occurrence of `k` in place, otherwise append the new binding. -/
def dictInsert : PDB → String → List String → PDB
  | [], k, v => [(k, v)]
  | pr :: db, k, v => if pr.1 = k then (k, v) :: db else pr :: dictInsert db k v

/-- Python dict lookup `d[k]` as an option (first binding of `k`). -/
def lookup? : PDB → String → Option (List String)
  | [], _ => none
  | pr :: db, n => if pr.1 = n then some pr.2 else lookup? db n

/-- Python `packages_db.get(pkg, [])`. -/
def dbGet (db : PDB) (p : String) : List String :=
  (lookup? db p).getD []

/-- Commit the currently open record: the source runs
`if current_package: packages_db[current_package] = dependencies`, and
Python truthiness makes both `None` and the empty name skip the commit. -/
def commitTo (db : PDB) (cur : Option String) (deps : List String) : PDB :=
  match cur with
  | some c => if c = "" then db else dictInsert db c deps
  | none => db

/-- The parser loop of `parse_installed_packages` (visualizer.py lines
52-68): state is the database built so far, the currently open package
name (`None` before the first `P:` line) and its accumulated dependency
list.  Each raw line is stripped before classification. -/
def parseAux : List String → PDB → Option String → List String → PDB
  | [], db, cur, deps => commitTo db cur deps
  | l :: ls, db, cur, deps =>
    let line := pyStrip l
    if pyStartsWith line "P:" then
      parseAux ls (commitTo db cur deps) (some (pyDrop line 2)) []
    else if pyStartsWith line "D:" then
      parseAux ls db cur (deps ++ pySplit (pyDrop line 2))
    else
      parseAux ls db cur deps

/-- `parse_installed_packages` on the sequence of lines of the database
file (the I/O part — opening the file — is outside the structural parse). -/
def parse_installed_packages (ls : List String) : PDB :=
  parseAux ls [] none []

/-- Sum of the lengths of all dependency lists of the database; one more
than this is always enough fuel for `buildVisit` (theorem
`buildVisit_sound`). -/
def totalDepLen (db : PDB) : Nat :=
  (db.map (fun pr => pr.2.length)).sum

/-- Termination potential of the traversal: total dependency-list length
of the database entries whose key is not yet visited. -/
def phiSum (db : PDB) (visited : List String) : Nat :=
  ((db.filter (fun pr => decide (pr.1 ∉ visited))).map (fun pr => pr.2.length)).sum

/-- The `visit` recursion of `build_dependency_graph` (visualizer.py
lines 85-93) as a stack machine: popping an unvisited `pkg` marks it
visited, records `pkg ↦ packages_db.get(pkg, [])` and pushes its
dependencies in declaration order in front of the remaining stack, which
is exactly the source's pre-order depth-first recursion; popping a
visited `pkg` skips it.  `none` means the fuel ran out (provably
unreachable with fuel `totalDepLen db + 1`). -/
def buildVisit (db : PDB) : Nat → List String → List String → PDB → Option PDB
  | _, [], _, graph => some graph
  | 0, _ :: _, _, _ => none
  | fuel + 1, pkg :: rest, visited, graph =>
    if pkg ∈ visited then
      buildVisit db fuel rest visited graph
    else
      let deps := dbGet db pkg
      buildVisit db fuel (deps ++ rest) (pkg :: visited) (dictInsert graph pkg deps)

/-- `build_dependency_graph` (visualizer.py lines 75-94): raises
`ValueError` (the spec's `PackageNotFoundError`) when the root is not a
key of the database, otherwise runs the traversal from the root.  The
`getD []` default is unreachable: `buildVisit_sound` shows the fuel
suffices. -/
def build_dependency_graph (package_name : String) (packages_db : PDB) :
    Except String PDB :=
  if package_name ∈ packages_db.map Prod.fst then
    Except.ok ((buildVisit packages_db (totalDepLen packages_db + 1)
      [package_name] [] []).getD [])
  else
    Except.error ("Пакет \x27" ++ package_name ++ "\x27 не найден в базе данных пакетов.")

/-- `generate_plantuml` (visualizer.py lines 96-105): header line, one
edge line per (package, dependency) pair in graph iteration order, footer
line, joined with newlines. -/
def generate_plantuml (dependency_graph : PDB) : String :=
  let lines := ["@startuml"] ++
    (dependency_graph.map (fun pr =>
      pr.2.map (fun dep => "\"" ++ pr.1 ++ "\" --> \"" ++ dep ++ "\""))).flatten ++
    ["@enduml"]
  String.intercalate "\n" lines

/-- File system model: ensure a path exists (write / rename target). -/
def addFile (fs : List String) (p : String) : List String :=
  if p ∈ fs then fs else fs ++ [p]

/-- File system model: `os.remove` / the removal half of `os.rename`. -/
def removeFile (fs : List String) (p : String) : List String :=
  fs.filter (fun q => q ≠ p)

/-- `containsSub sub big` decides whether `sub` occurs contiguously
inside `big` — the "contains verbatim" relation on character lists. -/
def containsSub (sub : List Char) : List Char → Bool
  | [] => sub.isEmpty
  | c :: bs => sub.isPrefixOf (c :: bs) || containsSub sub bs

/-- `generate_image` (visualizer.py lines 107-141) under the explicit
file-system model.  `fs` is the set of existing paths; `tmp_path` is the
temporary `.puml` file written first; the subprocess is an external event
described by `returncode`, `stderr` and `produces` (whether it created
`generated_image`, the artifact path derived from the output directory
and the temp file's stem).  On `returncode ≠ 0` the `except` branch
raises `RuntimeError` carrying `e.stderr.decode().strip()`; on success
with the artifact absent the `FileNotFoundError` raise propagates;
otherwise the artifact is renamed onto `output_image_path`.  The
`finally` block removes the temp file on every path.  The result is the
raised error or success, paired with the final file system. -/
def generate_image (fs : List String)
    (tmp_path generated_image output_image_path : String)
    (returncode : Nat) (stderr : String) (produces : Bool) :
    Except String Unit × List String :=
  let fs1 := addFile fs tmp_path
  let fsRun := if produces then addFile fs1 generated_image else fs1
  let resFs :=
    if returncode ≠ 0 then
      (Except.error ("Ошибка при выполнении PlantUML: " ++ pyStrip stderr), fsRun)
    else if generated_image ∈ fsRun then
      (Except.ok (), addFile (removeFile fsRun generated_image) output_image_path)
    else
      (Except.error "PlantUML не сгенерировал изображение.", fsRun)
  (resFs.1, if tmp_path ∈ resFs.2 then removeFile resFs.2 tmp_path else resFs.2)

/-!  Specification-side definitions for the duplicate-record claim: the
spec describes the input as a sequence of `P:` blocks, each block
consisting of a `P:` line followed by the `D:` lines up to the next `P:`
line, whose tokens accumulate in order. -/

/-- The dependency tokens accumulated by the `D:` lines before the next
`P:` line (the spec's description of one block's dependency list). -/
def blockDeps : List String → List String
  | [] => []
  | l :: ls =>
    let line := pyStrip l
    if pyStartsWith line "P:" then []
    else if pyStartsWith line "D:" then pySplit (pyDrop line 2) ++ blockDeps ls
    else blockDeps ls

/-- The `P:` blocks of the input in order: each `P:` line opens a block
named by the line's remainder, carrying the tokens of the following `D:`
lines (the spec's block decomposition of the record format). -/
def blocks : List String → List (String × List String)
  | [] => []
  | l :: ls =>
    let line := pyStrip l
    if pyStartsWith line "P:" then (pyDrop line 2, blockDeps ls) :: blocks ls
    else blocks ls

/-- The record the open parser state would commit on its own (nothing for
`None` or an empty name, by Python truthiness). -/
def singleCommit (cur : Option String) (deps : List String) : PDB :=
  match cur with
  | some c => if c = "" then [] else [(c, deps)]
  | none => []

/-- The record the open parser state will eventually commit after also
reading the remaining lines `ls` of its block. -/
def openCommit (cur : Option String) (deps : List String) (ls : List String) : PDB :=
  singleCommit cur (deps ++ blockDeps ls)

/-- The dependency list of the last record named `n` in a commit
sequence — the spec's last-write-wins binding. -/
def lastBind (cs : PDB) (n : String) : Option (List String) :=
  (cs.reverse.find? (fun pr => pr.1 == n)).map Prod.snd

/-!  Association-list lemmas. -/

theorem lookup?_cons (pr : String × List String) (db : PDB) (n : String) :
    lookup? (pr :: db) n = if pr.1 = n then some pr.2 else lookup? db n := rfl

theorem dbGet_cons (pr : String × List String) (db : PDB) (p : String) :
    dbGet (pr :: db) p = if pr.1 = p then pr.2 else dbGet db p := by
  simp only [dbGet, lookup?_cons]
  split <;> rfl

theorem lookup?_eq_none_of_not_mem {db : PDB} {n : String}
    (h : n ∉ db.map Prod.fst) : lookup? db n = none := by
  induction db with
  | nil => rfl
  | cons pr db ih =>
    simp only [List.map_cons, List.mem_cons] at h
    push_neg at h
    rw [lookup?_cons, if_neg (Ne.symm h.1), ih h.2]

theorem dbGet_eq_nil_of_not_mem {db : PDB} {p : String}
    (h : p ∉ db.map Prod.fst) : dbGet db p = [] := by
  simp [dbGet, lookup?_eq_none_of_not_mem h]

theorem lookup?_dictInsert (db : PDB) (k : String) (v : List String) (n : String) :
    lookup? (dictInsert db k v) n = if n = k then some v else lookup? db n := by
  induction db with
  | nil =>
    simp only [dictInsert, lookup?]
    rcases eq_or_ne n k with h | h
    · simp [h]
    · simp [h, Ne.symm h]
  | cons pr db ih =>
    by_cases hk : pr.1 = k
    · simp only [dictInsert, if_pos hk, lookup?_cons]
      rcases eq_or_ne n k with h | h
      · simp [h]
      · simp [h, Ne.symm h, hk ▸ (Ne.symm h : k ≠ n)]
    · simp only [dictInsert, if_neg hk, lookup?_cons, ih]
      rcases eq_or_ne pr.1 n with h | h
      · simp [h, h ▸ hk]
      · simp [h]

theorem dictInsert_append {db : PDB} {k : String} (v : List String)
    (h : k ∉ db.map Prod.fst) : dictInsert db k v = db ++ [(k, v)] := by
  induction db with
  | nil => rfl
  | cons pr db ih =>
    simp only [List.map_cons, List.mem_cons] at h
    push_neg at h
    simp only [dictInsert, if_neg (Ne.symm h.1), List.cons_append, ih h.2]

theorem mem_keys_dictInsert {db : PDB} {k x : String} {v : List String}
    (h : x ∈ (dictInsert db k v).map Prod.fst) : x = k ∨ x ∈ db.map Prod.fst := by
  induction db with
  | nil => simpa [dictInsert] using h
  | cons pr db ih =>
    by_cases hk : pr.1 = k
    · simp only [dictInsert, if_pos hk, List.map_cons, List.mem_cons] at h ⊢
      tauto
    · simp only [dictInsert, if_neg hk, List.map_cons, List.mem_cons] at h ⊢
      tauto

theorem lookup?_of_mem_nodup {db : PDB} (hnd : (db.map Prod.fst).Nodup)
    {pr : String × List String} (h : pr ∈ db) : lookup? db pr.1 = some pr.2 := by
  induction db with
  | nil => simp at h
  | cons qr db ih =>
    simp only [List.map_cons, List.nodup_cons] at hnd
    rcases List.mem_cons.mp h with h | h
    · rw [h, lookup?_cons, if_pos rfl]
    · have hne : qr.1 ≠ pr.1 := by
        intro he
        exact hnd.1 (he ▸ List.mem_map_of_mem Prod.fst h)
      rw [lookup?_cons, if_neg hne, ih hnd.2 h]

/-!  Potential-function lemmas: each traversal step strictly decreases
`stack.length + phiSum db visited`, so `totalDepLen db + 1` fuel always
suffices from the initial state. -/

theorem phiSum_cons (pr : String × List String) (db : PDB) (v : List String) :
    phiSum (pr :: db) v = (if pr.1 ∈ v then 0 else pr.2.length) + phiSum db v := by
  by_cases h : pr.1 ∈ v <;> simp [phiSum, List.filter_cons, h]

theorem phiSum_mono (db : PDB) (p : String) (v : List String) :
    phiSum db (p :: v) ≤ phiSum db v := by
  induction db with
  | nil => exact Nat.le_refl _
  | cons pr db ih =>
    rw [phiSum_cons, phiSum_cons]
    by_cases h1 : pr.1 ∈ v
    · simp only [if_pos h1, if_pos (List.mem_cons_of_mem p h1)]
      omega
    · by_cases h2 : pr.1 = p
      · simp only [if_pos (List.mem_cons.mpr (Or.inl h2)), if_neg h1]
        omega
      · have : pr.1 ∉ p :: v := by simp [h2, h1]
        simp only [if_neg this, if_neg h1]
        omega

theorem phiSum_insert (db : PDB) {p : String} {v : List String} (hp : p ∉ v) :
    phiSum db (p :: v) + (dbGet db p).length ≤ phiSum db v := by
  induction db with
  | nil => simp [phiSum, dbGet, lookup?]
  | cons pr db ih =>
    rw [phiSum_cons, phiSum_cons, dbGet_cons]
    by_cases hp1 : pr.1 = p
    · have h1 : pr.1 ∈ p :: v := List.mem_cons.mpr (Or.inl hp1)
      have h2 : pr.1 ∉ v := hp1 ▸ hp
      have := phiSum_mono db p v
      simp only [if_pos h1, if_neg h2, if_pos hp1]
      omega
    · have h1 : pr.1 ∈ p :: v ↔ pr.1 ∈ v := by simp [hp1]
      simp only [if_neg hp1]
      by_cases h2 : pr.1 ∈ v
      · simp only [if_pos h2, if_pos (h1.mpr h2)]
        omega
      · simp only [if_neg h2, if_neg (fun h => h2 (h1.mp h))]
        omega

theorem phiSum_nil_visited (db : PDB) : phiSum db [] = totalDepLen db := by
  simp [phiSum, totalDepLen]

/-!  Unfolding equations for `buildVisit`. -/

theorem buildVisit_nil (db : PDB) (fuel : Nat) (visited : List String) (graph : PDB) :
    buildVisit db fuel [] visited graph = some graph := by
  cases fuel <;> rfl

theorem buildVisit_cons (db : PDB) (fuel : Nat) (pkg : String)
    (rest visited : List String) (graph : PDB) :
    buildVisit db (fuel + 1) (pkg :: rest) visited graph =
      if pkg ∈ visited then buildVisit db fuel rest visited graph
      else buildVisit db fuel (dbGet db pkg ++ rest) (pkg :: visited)
        (dictInsert graph pkg (dbGet db pkg)) := rfl

/-- Soundness of the traversal: with enough fuel it completes and the
resulting graph extends the accumulator, records every entry's
dependency list as `packages_db.get(·, [])` verbatim, has pairwise
distinct keys, contains every package of the pending stack as a key, and
is closed under dependency membership. -/
theorem buildVisit_sound (db : PDB) :
    ∀ (fuel : Nat) (stack visited : List String) (graph : PDB),
      stack.length + phiSum db visited ≤ fuel →
      (∀ v, v ∈ visited ↔ v ∈ graph.map Prod.fst) →
      (graph.map Prod.fst).Nodup →
      (∀ pr ∈ graph, pr.2 = dbGet db pr.1) →
      (∀ pr ∈ graph, ∀ d ∈ pr.2, d ∈ visited ∨ d ∈ stack) →
      ∃ R, buildVisit db fuel stack visited graph = some R ∧
        (∀ pr ∈ graph, pr ∈ R) ∧
        (∀ pr ∈ R, pr.2 = dbGet db pr.1) ∧
        (R.map Prod.fst).Nodup ∧
        (∀ x ∈ stack, x ∈ R.map Prod.fst) ∧
        (∀ pr ∈ R, ∀ d ∈ pr.2, d ∈ R.map Prod.fst) := by
  intro fuel
  induction fuel with
  | zero =>
    intro stack visited graph hfuel hvk hnd hval hcl
    cases stack with
    | nil =>
      refine ⟨graph, buildVisit_nil .., fun pr h => h, hval, hnd, by simp, ?_⟩
      intro pr hpr d hd
      rcases hcl pr hpr d hd with h | h
      · exact (hvk d).mp h
      · simp at h
    | cons pkg rest => simp at hfuel
  | succ f ih =>
    intro stack visited graph hfuel hvk hnd hval hcl
    cases stack with
    | nil =>
      refine ⟨graph, buildVisit_nil .., fun pr h => h, hval, hnd, by simp, ?_⟩
      intro pr hpr d hd
      rcases hcl pr hpr d hd with h | h
      · exact (hvk d).mp h
      · simp at h
    | cons pkg rest =>
      rw [buildVisit_cons]
      by_cases hv : pkg ∈ visited
      · rw [if_pos hv]
        have hfuel' : rest.length + phiSum db visited ≤ f := by
          simp only [List.length_cons] at hfuel
          omega
        have hcl' : ∀ pr ∈ graph, ∀ d ∈ pr.2, d ∈ visited ∨ d ∈ rest := by
          intro pr hpr d hd
          rcases hcl pr hpr d hd with h | h
          · exact Or.inl h
          · rcases List.mem_cons.mp h with h | h
            · exact Or.inl (h ▸ hv)
            · exact Or.inr h
        obtain ⟨R, hR, h1, h2, h3, h4, h5⟩ := ih rest visited graph hfuel' hvk hnd hval hcl'
        refine ⟨R, hR, h1, h2, h3, ?_, h5⟩
        intro x hx
        rcases List.mem_cons.mp hx with h | h
        · obtain ⟨pr, hpr, hfst⟩ := List.mem_map.mp ((hvk x).mp (h ▸ hv))
          exact hfst ▸ List.mem_map_of_mem Prod.fst (h1 pr hpr)
        · exact h4 x h
      · rw [if_neg hv]
        have hkg : pkg ∉ graph.map Prod.fst := fun h => hv ((hvk pkg).mpr h)
        rw [dictInsert_append (dbGet db pkg) hkg]
        have hfuel' : (dbGet db pkg ++ rest).length + phiSum db (pkg :: visited) ≤ f := by
          have hA := phiSum_insert db hv
          simp only [List.length_append, List.length_cons] at hfuel ⊢
          omega
        have hvk' : ∀ v, v ∈ pkg :: visited ↔
            v ∈ (graph ++ [(pkg, dbGet db pkg)]).map Prod.fst := by
          intro v
          simp only [List.mem_cons, List.map_append, List.mem_append, hvk v,
            List.map_cons, List.map_nil, List.mem_singleton]
          tauto
        have hnd' : ((graph ++ [(pkg, dbGet db pkg)]).map Prod.fst).Nodup := by
          rw [List.map_append]
          exact List.Nodup.append hnd (List.nodup_singleton pkg)
            (by simpa [List.disjoint_singleton] using hkg)
        have hval' : ∀ pr ∈ graph ++ [(pkg, dbGet db pkg)], pr.2 = dbGet db pr.1 := by
          intro pr hpr
          rcases List.mem_append.mp hpr with h | h
          · exact hval pr h
          · rw [List.mem_singleton.mp h]
        have hcl' : ∀ pr ∈ graph ++ [(pkg, dbGet db pkg)], ∀ d ∈ pr.2,
            d ∈ pkg :: visited ∨ d ∈ dbGet db pkg ++ rest := by
          intro pr hpr d hd
          rcases List.mem_append.mp hpr with h | h
          · rcases hcl pr h d hd with h' | h'
            · exact Or.inl (List.mem_cons_of_mem pkg h')
            · rcases List.mem_cons.mp h' with h'' | h''
              · exact Or.inl (List.mem_cons.mpr (Or.inl h''))
              · exact Or.inr (List.mem_append_right _ h'')
          · rw [List.mem_singleton.mp h] at hd
            exact Or.inr (List.mem_append_left _ hd)
        obtain ⟨R, hR, h1, h2, h3, h4, h5⟩ :=
          ih (dbGet db pkg ++ rest) (pkg :: visited) (graph ++ [(pkg, dbGet db pkg)])
            hfuel' hvk' hnd' hval' hcl'
        refine ⟨R, hR, ?_, h2, h3, ?_, h5⟩
        · intro pr hpr
          exact h1 pr (List.mem_append_left _ hpr)
        · intro x hx
          rcases List.mem_cons.mp hx with h | h
          · have : (pkg, dbGet db pkg) ∈ R :=
              h1 _ (List.mem_append_right _ (List.mem_singleton.mpr rfl))
            exact h ▸ List.mem_map_of_mem Prod.fst this
          · exact h4 x (List.mem_append_right _ h)

/-- Instantiation of `buildVisit_sound` at the top-level call of
`build_dependency_graph`: when the root is a key, the build succeeds (the
traversal completes within its fuel) and the resulting graph records
dependency lists verbatim, has distinct keys, contains the root and is
closed under dependency membership. -/
theorem build_ok_spec (db : PDB) (root : String) (h : root ∈ db.map Prod.fst) :
    ∃ R, build_dependency_graph root db = Except.ok R ∧
      buildVisit db (totalDepLen db + 1) [root] [] [] = some R ∧
      (∀ pr ∈ R, pr.2 = dbGet db pr.1) ∧
      (R.map Prod.fst).Nodup ∧
      root ∈ R.map Prod.fst ∧
      (∀ pr ∈ R, ∀ d ∈ pr.2, d ∈ R.map Prod.fst) := by
  obtain ⟨R, hR, _, h2, h3, h4, h5⟩ :=
    buildVisit_sound db (totalDepLen db + 1) [root] [] []
      (by simp only [List.length_cons, List.length_nil, phiSum_nil_visited]; omega)
      (by simp) (by simp) (by simp) (by simp)
  exact ⟨R, by simp [build_dependency_graph, h, hR], hR, h2, h3, h4 root (by simp), h5⟩

theorem build_error_of_not_mem {db : PDB} {root : String}
    (h : root ∉ db.map Prod.fst) :
    build_dependency_graph root db =
      Except.error ("Пакет \x27" ++ root ++ "\x27 не найден в базе данных пакетов.") := by
  simp [build_dependency_graph, h]

theorem mem_of_build_ok {db : PDB} {root : String} {g : PDB}
    (h : build_dependency_graph root db = Except.ok g) : root ∈ db.map Prod.fst := by
  by_contra hn
  simp [build_dependency_graph, hn] at h

/-- C1 (amended): for every database containing the cycle A→B→A in which
db's list for A mentions B exactly once and db's list for B mentions A
exactly once, `build_dependency_graph A db` terminates (the traversal
completes within its fuel, witnessed by the `some` result of
`buildVisit`) and returns a graph in which the dependency list of A
contains B exactly once and the dependency list of B contains A exactly
once: cycle detection skips re-expansion of visited nodes but never
drops an edge. -/
theorem cycle_preserves_both_edges (db : PDB) (A B : String)
    (hAB : B ∈ dbGet db A) (hBA : A ∈ dbGet db B)
    (hcA : (dbGet db A).count B = 1) (hcB : (dbGet db B).count A = 1) :
    ∃ g, buildVisit db (totalDepLen db + 1) [A] [] [] = some g ∧
      build_dependency_graph A db = Except.ok g ∧
      ∃ lA lB, lookup? g A = some lA ∧ lA.count B = 1 ∧
        lookup? g B = some lB ∧ lB.count A = 1 := by
  have hA : A ∈ db.map Prod.fst := by
    by_contra h
    rw [dbGet_eq_nil_of_not_mem h] at hAB
    simp at hAB
  obtain ⟨g, hok, hvis, hval, hnd, hroot, hclosed⟩ := build_ok_spec db A hA
  refine ⟨g, hvis, hok, ?_⟩
  obtain ⟨prA, hprA, hfstA⟩ := List.mem_map.mp hroot
  have hlA : lookup? g A = some prA.2 := hfstA ▸ lookup?_of_mem_nodup hnd hprA
  have hvalA : prA.2 = dbGet db A := by rw [hval prA hprA, hfstA]
  have hBkeys : B ∈ g.map Prod.fst :=
    hclosed prA hprA B (by rw [hvalA]; exact hAB)
  obtain ⟨prB, hprB, hfstB⟩ := List.mem_map.mp hBkeys
  have hlB : lookup? g B = some prB.2 := hfstB ▸ lookup?_of_mem_nodup hnd hprB
  have hvalB : prB.2 = dbGet db B := by rw [hval prB hprB, hfstB]
  exact ⟨prA.2, prB.2, hlA, by rw [hvalA]; exact hcA,
    hlB, by rw [hvalB]; exact hcB⟩

/-- Witness for `cycle_preserves_both_edges` at the two-package cycle
db = A↦[B], B↦[A]. -/
theorem cycle_preserves_both_edges_witness :
    ∃ g, buildVisit [("A", ["B"]), ("B", ["A"])]
        (totalDepLen [("A", ["B"]), ("B", ["A"])] + 1) ["A"] [] [] = some g ∧
      build_dependency_graph "A" [("A", ["B"]), ("B", ["A"])] = Except.ok g ∧
      ∃ lA lB, lookup? g "A" = some lA ∧ lA.count "B" = 1 ∧
        lookup? g "B" = some lB ∧ lB.count "A" = 1 :=
  cycle_preserves_both_edges [("A", ["B"]), ("B", ["A"])] "A" "B"
    (by decide) (by decide) (by decide) (by decide)

/-- Counterexample to C1 as stated: the database A↦[B,B], B↦[A] contains
the cycle A→B→A, yet the dependency list recorded for A contains B twice,
not exactly once — the builder copies the declared list verbatim, so a
duplicated edge declaration survives duplicated. -/
theorem cycle_exactly_once_counterexample :
    ("B" ∈ dbGet [("A", ["B", "B"]), ("B", ["A"])] "A") ∧
    ("A" ∈ dbGet [("A", ["B", "B"]), ("B", ["A"])] "B") ∧
    build_dependency_graph "A" [("A", ["B", "B"]), ("B", ["A"])] =
      Except.ok [("A", ["B", "B"]), ("B", ["A"])] ∧
    lookup? [("A", ["B", "B"]), ("B", ["A"])] "A" = some ["B", "B"] ∧
    (["B", "B"].count "B" = 2) :=
  ⟨by decide, by decide, rfl, by decide, by decide⟩

/-- C2: every key of a graph returned by `build_dependency_graph` maps to
the database's dependency list for that key verbatim — never truncated,
reordered or deduplicated — and to the empty list when the key is absent
from the database. -/
theorem graph_lists_verbatim (db : PDB) (root : String) (g : PDB)
    (pr : String × List String)
    (h : build_dependency_graph root db = Except.ok g) (hpr : pr ∈ g) :
    pr.2 = dbGet db pr.1 ∧ (pr.1 ∉ db.map Prod.fst → pr.2 = []) := by
  have hmem := mem_of_build_ok h
  obtain ⟨R, hok, _, hval, _, _, _⟩ := build_ok_spec db root hmem
  have hRg : R = g := Except.ok.inj (hok.symm.trans h)
  subst hRg
  exact ⟨hval pr hpr,
    fun hnot => by rw [hval pr hpr, dbGet_eq_nil_of_not_mem hnot]⟩

/-- Witness for `graph_lists_verbatim`: the dangling leaf x of the
database a↦[x] is recorded with the empty list. -/
theorem graph_lists_verbatim_witness :
    ("x", ([] : List String)).2 = dbGet [("a", ["x"])] ("x", ([] : List String)).1 ∧
    (("x", ([] : List String)).1 ∉ ([("a", ["x"])] : PDB).map Prod.fst →
      ("x", ([] : List String)).2 = []) :=
  graph_lists_verbatim [("a", ["x"])] "a" [("a", ["x"]), ("x", [])]
    ("x", []) rfl (by decide)

/-- C3: a graph returned by `build_dependency_graph` is closed under
dependency membership — every name in a value list is itself a key — and
a dangling reference (a dependency absent from the database) appears as a
key mapped to the empty list, without any error. -/
theorem graph_closed_under_deps (db : PDB) (root : String) (g : PDB)
    (pr : String × List String) (d : String)
    (h : build_dependency_graph root db = Except.ok g)
    (hpr : pr ∈ g) (hd : d ∈ pr.2) :
    d ∈ g.map Prod.fst ∧
      ∃ l, (d, l) ∈ g ∧ (d ∉ db.map Prod.fst → l = []) := by
  have hmem := mem_of_build_ok h
  obtain ⟨R, hok, _, hval, _, _, hclosed⟩ := build_ok_spec db root hmem
  have hRg : R = g := Except.ok.inj (hok.symm.trans h)
  rw [hRg] at hval hclosed
  have hdk : d ∈ g.map Prod.fst := hclosed pr hpr d hd
  obtain ⟨prd, hprd, hfst⟩ := List.mem_map.mp hdk
  refine ⟨hdk, prd.2, ?_, ?_⟩
  · rw [← hfst]
    exact hprd
  · intro hnot
    rw [hval prd hprd, hfst, dbGet_eq_nil_of_not_mem hnot]

/-- Witness for `graph_closed_under_deps` at the dangling reference x of
the database a↦[x]. -/
theorem graph_closed_under_deps_witness :
    "x" ∈ ([("a", ["x"]), ("x", [])] : PDB).map Prod.fst ∧
      ∃ l, ("x", l) ∈ ([("a", ["x"]), ("x", [])] : PDB) ∧
        ("x" ∉ ([("a", ["x"])] : PDB).map Prod.fst → l = []) :=
  graph_closed_under_deps [("a", ["x"])] "a" [("a", ["x"]), ("x", [])]
    ("a", ["x"]) "x" rfl (by decide) (by decide)

/-- C4: `build_dependency_graph` fails — with the `PackageNotFoundError`
message naming the root — exactly when the root is not a key of the
database, and succeeds with a graph whenever the root is a key.  The
function is pure, so the database value is unchanged by the failure. -/
theorem build_root_membership (db : PDB) (root : String) :
    (root ∈ db.map Prod.fst ↔ ∃ g, build_dependency_graph root db = Except.ok g) ∧
    (root ∉ db.map Prod.fst ↔ build_dependency_graph root db =
      Except.error ("Пакет \x27" ++ root ++ "\x27 не найден в базе данных пакетов.")) := by
  constructor
  · constructor
    · intro h
      obtain ⟨R, hok, _⟩ := build_ok_spec db root h
      exact ⟨R, hok⟩
    · rintro ⟨g, hg⟩
      exact mem_of_build_ok hg
  · constructor
    · exact build_error_of_not_mem
    · intro h hmem
      obtain ⟨R, hok, _⟩ := build_ok_spec db root hmem
      rw [hok] at h
      simp at h

/-- Witness for `build_root_membership` at a present and an absent root
of the one-package database a↦[]. -/
theorem build_root_membership_witness :
    (("a" ∈ ([("a", [])] : PDB).map Prod.fst ↔
        ∃ g, build_dependency_graph "a" [("a", [])] = Except.ok g) ∧
      ("a" ∉ ([("a", [])] : PDB).map Prod.fst ↔
        build_dependency_graph "a" [("a", [])] =
          Except.error ("Пакет \x27" ++ "a" ++ "\x27 не найден в базе данных пакетов."))) ∧
    "missing" ∉ ([("a", [])] : PDB).map Prod.fst ∧
    build_dependency_graph "missing" [("a", [])] =
      Except.error ("Пакет \x27" ++ "missing" ++ "\x27 не найден в базе данных пакетов.") :=
  ⟨build_root_membership [("a", [])] "a",
    by decide,
    (build_root_membership [("a", [])] "missing").2.mp (by decide)⟩

/-- C5: the concrete scenario — the database text
`P:bash\nD:libc readline\nP:libc\nD:\nP:readline\nD:libc` parses to
bash↦[libc, readline], libc↦[], readline↦[libc]; building from bash
returns an equal mapping; and rendering emits exactly the edge lines
bash→libc, bash→readline, readline→libc in that order between the
`@startuml` header and `@enduml` footer. -/
theorem scenario_bash_pipeline :
    parse_installed_packages
        (splitLines "P:bash\nD:libc readline\nP:libc\nD:\nP:readline\nD:libc") =
      [("bash", ["libc", "readline"]), ("libc", []), ("readline", ["libc"])] ∧
    build_dependency_graph "bash"
        [("bash", ["libc", "readline"]), ("libc", []), ("readline", ["libc"])] =
      Except.ok [("bash", ["libc", "readline"]), ("libc", []), ("readline", ["libc"])] ∧
    generate_plantuml
        [("bash", ["libc", "readline"]), ("libc", []), ("readline", ["libc"])] =
      "@startuml\n\"bash\" --> \"libc\"\n\"bash\" --> \"readline\"\n\"readline\" --> \"libc\"\n@enduml" :=
  ⟨rfl, rfl, rfl⟩

/-!  Parser lemmas. -/

theorem parseAux_cons (l : String) (ls : List String) (db : PDB)
    (cur : Option String) (deps : List String) :
    parseAux (l :: ls) db cur deps =
      if pyStartsWith (pyStrip l) "P:" then
        parseAux ls (commitTo db cur deps) (some (pyDrop (pyStrip l) 2)) []
      else if pyStartsWith (pyStrip l) "D:" then
        parseAux ls db cur (deps ++ pySplit (pyDrop (pyStrip l) 2))
      else parseAux ls db cur deps := rfl

theorem commitTo_untruthy {cur : Option String} (db : PDB) (deps : List String)
    (h : cur = none ∨ cur = some "") : commitTo db cur deps = db := by
  rcases h with h | h <;> subst h <;> simp [commitTo]

theorem parseAux_deps_irrelevant :
    ∀ (ls : List String) (db : PDB) (cur : Option String) (deps deps' : List String),
      (cur = none ∨ cur = some "") →
      parseAux ls db cur deps = parseAux ls db cur deps' := by
  intro ls
  induction ls with
  | nil =>
    intro db cur deps deps' hcur
    show commitTo db cur deps = commitTo db cur deps'
    rw [commitTo_untruthy db deps hcur, commitTo_untruthy db deps' hcur]
  | cons l ls ih =>
    intro db cur deps deps' hcur
    rw [parseAux_cons, parseAux_cons]
    by_cases hp : pyStartsWith (pyStrip l) "P:"
    · rw [if_pos hp, if_pos hp, commitTo_untruthy db deps hcur,
        commitTo_untruthy db deps' hcur]
    · rw [if_neg hp, if_neg hp]
      by_cases hd : pyStartsWith (pyStrip l) "D:"
      · rw [if_pos hd, if_pos hd]
        exact ih db cur _ _ hcur
      · rw [if_neg hd, if_neg hd]
        exact ih db cur _ _ hcur

theorem parseAux_no_p_lines :
    ∀ (ls : List String) (db : PDB) (cur : Option String) (deps : List String),
      (∀ l ∈ ls, ¬ pyStartsWith (pyStrip l) "P:") →
      (cur = none ∨ cur = some "") →
      parseAux ls db cur deps = db := by
  intro ls
  induction ls with
  | nil =>
    intro db cur deps _ hcur
    exact commitTo_untruthy db deps hcur
  | cons l ls ih =>
    intro db cur deps h hcur
    have hp : ¬ pyStartsWith (pyStrip l) "P:" := h l (List.mem_cons_self l ls)
    have h' : ∀ l' ∈ ls, ¬ pyStartsWith (pyStrip l') "P:" :=
      fun l' hl' => h l' (List.mem_cons_of_mem l hl')
    rw [parseAux_cons, if_neg hp]
    by_cases hd : pyStartsWith (pyStrip l) "D:"
    · rw [if_pos hd]
      exact ih db cur _ h' hcur
    · rw [if_neg hd]
      exact ih db cur _ h' hcur

theorem keys_ne_empty_commitTo {db : PDB} (cur : Option String) (deps : List String)
    (h : ∀ k ∈ db.map Prod.fst, k ≠ "") :
    ∀ k ∈ (commitTo db cur deps).map Prod.fst, k ≠ "" := by
  cases cur with
  | none => exact h
  | some c =>
    by_cases hc : c = ""
    · simpa [commitTo, hc] using h
    · simp only [commitTo, if_neg hc]
      intro k hk
      rcases mem_keys_dictInsert hk with h' | h'
      · exact h' ▸ hc
      · exact h k h'

theorem parseAux_keys_ne_empty :
    ∀ (ls : List String) (db : PDB) (cur : Option String) (deps : List String),
      (∀ k ∈ db.map Prod.fst, k ≠ "") →
      ∀ k ∈ (parseAux ls db cur deps).map Prod.fst, k ≠ "" := by
  intro ls
  induction ls with
  | nil =>
    intro db cur deps h
    exact keys_ne_empty_commitTo cur deps h
  | cons l ls ih =>
    intro db cur deps h
    rw [parseAux_cons]
    by_cases hp : pyStartsWith (pyStrip l) "P:"
    · rw [if_pos hp]
      exact ih _ _ _ (keys_ne_empty_commitTo cur deps h)
    · rw [if_neg hp]
      by_cases hd : pyStartsWith (pyStrip l) "D:"
      · rw [if_pos hd]
        exact ih _ _ _ h
      · rw [if_neg hd]
        exact ih _ _ _ h

/-!  Last-write-wins refinement: the parser's binding for a non-empty
name is the last commit of that name, where commits are described by the
spec-side block decomposition `blocks`. -/

theorem lastBind_append (a b : PDB) (n : String) :
    lastBind (a ++ b) n = (lastBind b n).or (lastBind a n) := by
  simp only [lastBind, List.reverse_append, List.find?_append]
  cases b.reverse.find? (fun pr => pr.1 == n) <;> simp

theorem lastBind_cons (pr : String × List String) (cs : PDB) (n : String) :
    lastBind (pr :: cs) n =
      (lastBind cs n).or (if pr.1 == n then some pr.2 else none) := by
  have h : pr :: cs = [pr] ++ cs := rfl
  rw [h, lastBind_append]
  by_cases hn : pr.1 == n <;> simp [lastBind, List.find?, hn]

theorem lookup?_commitTo (db : PDB) (cur : Option String) (deps : List String)
    (n : String) :
    lookup? (commitTo db cur deps) n =
      (lastBind (singleCommit cur deps) n).or (lookup? db n) := by
  cases cur with
  | none => simp [commitTo, singleCommit, lastBind]
  | some c =>
    by_cases hc : c = ""
    · simp [commitTo, singleCommit, hc, lastBind]
    · simp only [commitTo, singleCommit, if_neg hc]
      rw [lookup?_dictInsert]
      rcases eq_or_ne n c with hn | hn
      · simp [hn, lastBind, List.find?]
      · have : (c == n) = false := by simp [Ne.symm hn]
        simp [hn, lastBind, List.find?, this]

theorem blockDeps_cons_p {l : String} (ls : List String)
    (hp : pyStartsWith (pyStrip l) "P:") : blockDeps (l :: ls) = [] := by
  simp [blockDeps, hp]

theorem blockDeps_cons_d {l : String} (ls : List String)
    (hp : ¬ pyStartsWith (pyStrip l) "P:") (hd : pyStartsWith (pyStrip l) "D:") :
    blockDeps (l :: ls) = pySplit (pyDrop (pyStrip l) 2) ++ blockDeps ls := by
  simp [blockDeps, hp, hd]

theorem blockDeps_cons_other {l : String} (ls : List String)
    (hp : ¬ pyStartsWith (pyStrip l) "P:") (hd : ¬ pyStartsWith (pyStrip l) "D:") :
    blockDeps (l :: ls) = blockDeps ls := by
  simp [blockDeps, hp, hd]

theorem blocks_cons_p {l : String} (ls : List String)
    (hp : pyStartsWith (pyStrip l) "P:") :
    blocks (l :: ls) = (pyDrop (pyStrip l) 2, blockDeps ls) :: blocks ls := by
  simp [blocks, hp]

theorem blocks_cons_not_p {l : String} (ls : List String)
    (hp : ¬ pyStartsWith (pyStrip l) "P:") : blocks (l :: ls) = blocks ls := by
  simp [blocks, hp]

theorem parseAux_lookup (n : String) (hn : n ≠ "") :
    ∀ (ls : List String) (db : PDB) (cur : Option String) (deps : List String),
      lookup? (parseAux ls db cur deps) n =
        (lastBind (openCommit cur deps ls ++ blocks ls) n).or (lookup? db n) := by
  intro ls
  induction ls with
  | nil =>
    intro db cur deps
    show lookup? (commitTo db cur deps) n = _
    rw [lookup?_commitTo]
    have h1 : openCommit cur deps [] ++ blocks [] = singleCommit cur deps := by
      simp [openCommit, blocks, blockDeps]
    rw [h1]
  | cons l ls ih =>
    intro db cur deps
    rw [parseAux_cons]
    by_cases hp : pyStartsWith (pyStrip l) "P:"
    · rw [if_pos hp, ih, lookup?_commitTo]
      have hoc : openCommit cur deps (l :: ls) = singleCommit cur deps := by
        simp [openCommit, blockDeps_cons_p ls hp]
      rw [blocks_cons_p ls hp, hoc]
      have hone : lastBind (openCommit (some (pyDrop (pyStrip l) 2)) [] ls) n =
          (if (pyDrop (pyStrip l) 2) == n then some (blockDeps ls) else none) := by
        by_cases he : pyDrop (pyStrip l) 2 = ""
        · have : ((pyDrop (pyStrip l) 2) == n) = false := by
            simp [he, Ne.symm hn]
          simp [openCommit, singleCommit, he, lastBind, this, Ne.symm hn]
        · simp [openCommit, singleCommit, he, lastBind, List.find?]
      rw [lastBind_append, hone, lastBind_append, lastBind_cons]
      simp only [Option.or_assoc]
    · by_cases hd : pyStartsWith (pyStrip l) "D:"
      · rw [if_neg hp, if_pos hd, ih]
        have hoc : openCommit cur (deps ++ pySplit (pyDrop (pyStrip l) 2)) ls =
            openCommit cur deps (l :: ls) := by
          simp [openCommit, blockDeps_cons_d ls hp hd, List.append_assoc]
        rw [hoc, blocks_cons_not_p ls hp]
      · rw [if_neg hp, if_neg hd, ih]
        have hoc : openCommit cur deps ls = openCommit cur deps (l :: ls) := by
          simp [openCommit, blockDeps_cons_other ls hp hd]
        rw [hoc, blocks_cons_not_p ls hp]

/-- C6: the structural parse is total by construction (it never raises on
any content), and content with no `P:` line at all — including content
with no recognizably formatted line — yields the empty mapping rather
than an error. -/
theorem parse_no_records_empty (ls : List String)
    (h : ∀ l ∈ ls, ¬ pyStartsWith (pyStrip l) "P:") :
    parse_installed_packages ls = [] :=
  parseAux_no_p_lines ls [] none [] h (Or.inl rfl)

/-- Witness for `parse_no_records_empty` at the malformed-content input
of the repository's own test. -/
theorem parse_no_records_empty_witness :
    parse_installed_packages ["Invalid content"] = [] :=
  parse_no_records_empty ["Invalid content"] (by decide)

/-- C7: when a non-empty package name heads more than one `P:` block, the
parsed mapping binds it to the dependency list accumulated by the last
such block (last-write-wins; earlier blocks are overwritten, not
merged). -/
theorem duplicate_blocks_last_wins (ls : List String) (n : String) (hn : n ≠ "")
    (hdup : 2 ≤ ((blocks ls).filter (fun pr => pr.1 == n)).length) :
    ∃ d, (blocks ls).reverse.find? (fun pr => pr.1 == n) = some (n, d) ∧
      lookup? (parse_installed_packages ls) n = some d := by
  have hmain := parseAux_lookup n hn ls [] none []
  have hoc : openCommit none [] ls = [] := rfl
  rw [hoc, List.nil_append] at hmain
  have hsome : ((blocks ls).reverse.find? (fun pr => pr.1 == n)).isSome := by
    rw [List.find?_isSome]
    have hne : (blocks ls).filter (fun pr => pr.1 == n) ≠ [] := by
      intro h
      rw [h] at hdup
      simp at hdup
    obtain ⟨pr, hpr⟩ := List.exists_mem_of_ne_nil _ hne
    have := List.mem_filter.mp hpr
    exact ⟨pr, List.mem_reverse.mpr this.1, this.2⟩
  obtain ⟨pr, hpr⟩ := Option.isSome_iff_exists.mp hsome
  have hfst : pr.1 = n := by
    have := List.find?_some hpr
    exact eq_of_beq this
  refine ⟨pr.2, ?_, ?_⟩
  · rw [hpr, ← hfst]
  · show lookup? (parseAux ls [] none []) n = some pr.2
    rw [hmain]
    simp [lastBind, hpr, lookup?]

/-- Witness for `duplicate_blocks_last_wins`: package a declared twice,
the second block's list y z wins. -/
theorem duplicate_blocks_last_wins_witness :
    ∃ d, (blocks ["P:a", "D:x", "P:a", "D:y z"]).reverse.find?
        (fun pr => pr.1 == "a") = some ("a", d) ∧
      lookup? (parse_installed_packages ["P:a", "D:x", "P:a", "D:y z"]) "a" = some d :=
  duplicate_blocks_last_wins ["P:a", "D:x", "P:a", "D:y z"] "a"
    (by decide) (by decide)

/-- C8: lines are stripped before classification (the classification
predicates read `pyStrip l`); a `D:` line appends its whitespace-split
tokens, in order, to the open record's accumulated list (so several `D:`
lines concatenate, and an empty remainder — `pySplit "" = []` — adds
nothing); any other non-`P:` line leaves the parser state unchanged; and
before the first `P:` line (open name `none`) even `D:` lines have no
effect on the result. -/
theorem line_classification (l : String) (ls : List String) (db : PDB)
    (cur : Option String) (deps : List String) :
    (¬ pyStartsWith (pyStrip l) "P:" → pyStartsWith (pyStrip l) "D:" →
      parseAux (l :: ls) db cur deps =
        parseAux ls db cur (deps ++ pySplit (pyDrop (pyStrip l) 2))) ∧
    (¬ pyStartsWith (pyStrip l) "P:" → ¬ pyStartsWith (pyStrip l) "D:" →
      parseAux (l :: ls) db cur deps = parseAux ls db cur deps) ∧
    (¬ pyStartsWith (pyStrip l) "P:" →
      parseAux (l :: ls) db none deps = parseAux ls db none []) ∧
    pySplit "" = [] := by
  refine ⟨?_, ?_, ?_, rfl⟩
  · intro hp hd
    rw [parseAux_cons, if_neg hp, if_pos hd]
  · intro hp hd
    rw [parseAux_cons, if_neg hp, if_neg hd]
  · intro hp
    rw [parseAux_cons, if_neg hp]
    by_cases hd : pyStartsWith (pyStrip l) "D:"
    · rw [if_pos hd]
      exact parseAux_deps_irrelevant ls db none _ _ (Or.inl rfl)
    · rw [if_neg hd]
      exact parseAux_deps_irrelevant ls db none _ _ (Or.inl rfl)

/-- Witness for `line_classification`: a stripped `D:` line appending two
tokens, an unrecognized line, and a `D:` line before any `P:` line. -/
theorem line_classification_witness :
    parseAux [" D:a  b "] [] (some "p") ["q"] =
      parseAux [] [] (some "p") (["q"] ++ pySplit (pyDrop (pyStrip " D:a  b ") 2)) ∧
    parseAux ["junk"] [] (some "p") ["q"] = parseAux [] [] (some "p") ["q"] ∧
    parseAux ["D:a"] [] none ["q"] = parseAux [] [] none [] :=
  ⟨(line_classification " D:a  b " [] [] (some "p") ["q"]).1 (by decide) (by decide),
   (line_classification "junk" [] [] (some "p") ["q"]).2.1 (by decide) (by decide),
   (line_classification "D:a" [] [] none ["q"]).2.2.1 (by decide)⟩

/-- C10: a `P:` line with an empty remainder opens a record `some ""`
that the commit (Python truthiness) never writes: every key of the
parsed mapping is non-empty, and dependencies accumulated under the
empty-named record are discarded (the parse result does not depend on
them). -/
theorem empty_name_never_committed (l : String) (ls ls' : List String)
    (db db' : PDB) (cur : Option String) (deps deps' : List String) (k : String)
    (hP : pyStartsWith (pyStrip l) "P:") (hE : pyDrop (pyStrip l) 2 = "")
    (hk : k ∈ (parse_installed_packages ls).map Prod.fst) :
    parseAux (l :: ls') db cur deps =
      parseAux ls' (commitTo db cur deps) (some "") [] ∧
    k ≠ "" ∧
    parseAux ls' db' (some "") deps' = parseAux ls' db' (some "") [] :=
  ⟨by rw [parseAux_cons, if_pos hP, hE],
   parseAux_keys_ne_empty ls [] none [] (by simp) k hk,
   parseAux_deps_irrelevant ls' db' (some "") deps' [] (Or.inr rfl)⟩

/-- Witness for `empty_name_never_committed`: `P:` opens an anonymous
record, the key x of a parsed database is non-empty, and dependencies
accumulated under the anonymous record do not affect the result. -/
theorem empty_name_never_committed_witness :
    parseAux ["P:" , "D:a"] [] (some "p") ["q"] =
      parseAux ["D:a"] (commitTo [] (some "p") ["q"]) (some "") [] ∧
    "x" ≠ "" ∧
    parseAux ["D:a"] [("y", [])] (some "") ["z"] =
      parseAux ["D:a"] [("y", [])] (some "") [] :=
  empty_name_never_committed "P:" ["P:x"] ["D:a"] [] [("y", [])]
    (some "p") ["q"] [] "x" (by decide) (by decide) (by decide)

/-!  Render-invoker lemmas. -/

theorem not_mem_removeFile (fs : List String) (p : String) : p ∉ removeFile fs p := by
  simp [removeFile, List.mem_filter]

theorem tmp_not_mem_cleanup (X : List String) (tmp : String) :
    tmp ∉ (if tmp ∈ X then removeFile X tmp else X) := by
  split
  · exact not_mem_removeFile X tmp
  · assumption

theorem mem_addFile (fs : List String) (p x : String) :
    x ∈ addFile fs p ↔ x ∈ fs ∨ x = p := by
  unfold addFile
  split
  · rename_i h
    exact ⟨Or.inl, fun h' => h'.elim id (fun he => he ▸ h)⟩
  · simp [List.mem_append]

theorem isPrefixOf_self (l : List Char) : l.isPrefixOf l = true := by
  induction l with
  | nil => rfl
  | cons c cs ih => simp [List.isPrefixOf, ih]

theorem containsSub_append_left (l₁ l₂ : List Char) :
    containsSub l₂ (l₁ ++ l₂) = true := by
  induction l₁ with
  | nil =>
    cases l₂ with
    | nil => rfl
    | cons c cs => simp [containsSub, isPrefixOf_self]
  | cons a l₁ ih =>
    rw [List.cons_append]
    simp [containsSub, ih]

/-- C9 (amended): when the subprocess exits non-zero, the call fails with
the render error whose message contains the subprocess's standard-error
text stripped of leading/trailing whitespace (the source formats
`e.stderr.decode().strip()` into the message) verbatim, and the
temporary diagram file is absent from the final file system; when the
subprocess succeeds but the expected artifact was not produced, the call
likewise fails with a render error and the temporary file is likewise
removed. -/
theorem render_failure_cleanup (fs : List String)
    (tmp_path generated_image output_image_path : String)
    (returncode : Nat) (stderr : String) (produces : Bool) :
    (returncode ≠ 0 →
      (generate_image fs tmp_path generated_image output_image_path
          returncode stderr produces).1 =
        Except.error ("Ошибка при выполнении PlantUML: " ++ pyStrip stderr) ∧
      containsSub (pyStrip stderr).data
        ("Ошибка при выполнении PlantUML: " ++ pyStrip stderr).data = true ∧
      tmp_path ∉ (generate_image fs tmp_path generated_image output_image_path
          returncode stderr produces).2) ∧
    (returncode = 0 → produces = false → generated_image ≠ tmp_path →
      generated_image ∉ fs →
      (generate_image fs tmp_path generated_image output_image_path
          returncode stderr produces).1 =
        Except.error "PlantUML не сгенерировал изображение." ∧
      tmp_path ∉ (generate_image fs tmp_path generated_image output_image_path
          returncode stderr produces).2) := by
  constructor
  · intro hrc
    refine ⟨by simp [generate_image, hrc], ?_, ?_⟩
    · rw [String.data_append]
      exact containsSub_append_left _ _
    · have h2 : (generate_image fs tmp_path generated_image output_image_path
          returncode stderr produces).2 =
          (if tmp_path ∈ (if produces then
              addFile (addFile fs tmp_path) generated_image
            else addFile fs tmp_path) then
            removeFile (if produces then
              addFile (addFile fs tmp_path) generated_image
            else addFile fs tmp_path) tmp_path
          else (if produces then addFile (addFile fs tmp_path) generated_image
            else addFile fs tmp_path)) := by
        simp [generate_image, hrc]
      rw [h2]
      exact tmp_not_mem_cleanup _ _
  · intro hrc hpr hne hnf
    have habs : generated_image ∉ addFile fs tmp_path := by
      rw [mem_addFile]
      rintro (h | h)
      · exact hnf h
      · exact hne h
    refine ⟨by simp [generate_image, hrc, hpr, habs], ?_⟩
    have h2 : (generate_image fs tmp_path generated_image output_image_path
        returncode stderr produces).2 =
        (if tmp_path ∈ addFile fs tmp_path then
          removeFile (addFile fs tmp_path) tmp_path
        else addFile fs tmp_path) := by
      simp [generate_image, hrc, hpr, habs]
    rw [h2]
    exact tmp_not_mem_cleanup _ _

/-- Witness for `render_failure_cleanup`: a failing run with padded
stderr, and a successful run that produced no artifact. -/
theorem render_failure_cleanup_witness :
    ((generate_image ["db.txt"] "t.puml" "g.png" "o.png" 1 " boom " true).1 =
        Except.error ("Ошибка при выполнении PlantUML: " ++ pyStrip " boom ") ∧
      containsSub (pyStrip " boom ").data
        ("Ошибка при выполнении PlantUML: " ++ pyStrip " boom ").data = true ∧
      "t.puml" ∉ (generate_image ["db.txt"] "t.puml" "g.png" "o.png" 1 " boom " true).2) ∧
    ((generate_image [] "t.puml" "g.png" "o.png" 0 "" false).1 =
        Except.error "PlantUML не сгенерировал изображение." ∧
      "t.puml" ∉ (generate_image [] "t.puml" "g.png" "o.png" 0 "" false).2) :=
  ⟨(render_failure_cleanup ["db.txt"] "t.puml" "g.png" "o.png" 1 " boom " true).1
      (by decide),
   (render_failure_cleanup [] "t.puml" "g.png" "o.png" 0 "" false).2
      rfl rfl (by decide) (by decide)⟩

/-- Counterexample to C9 as stated: with standard-error text ending in a
newline the raised message contains only the stripped text, so the raw
standard-error text is not contained verbatim. -/
theorem render_stderr_verbatim_counterexample :
    (generate_image [] "tmp.puml" "tmp.png" "out.png" 1 "Error\n" false).1 =
      Except.error "Ошибка при выполнении PlantUML: Error" ∧
    containsSub "Error\n".data ("Ошибка при выполнении PlantUML: Error").data = false := by
  constructor
  · rfl
  · rfl

